import Mathlib

/-!
# Verification of the PennyLane-Lightning math-kernel utilities

This development embeds the C++ utility kernels of the `pennylane_lightning`
repository (`Util.hpp`: `partition`, `innerProd`, `innerProdC`,
`matrixVecProd`, `matrixMatProd`, `CFTranspose`/`Transpose`, `dimSize`) and
the error machinery (`Error.hpp`: `LightningException`, `Abort`) as Lean
functions, and proves the specified properties about them.

Conventions of the embedding:
* C++ raw buffers (`const std::complex<T> *`) are modelled as total
  functions `ℕ → α`; a possibly-null output pointer is an
  `Option (ℕ → α)`.
* The scalar type `std::complex<T>` is modelled as an arbitrary commutative
  ring with a star operation (instantiated at `ℂ`, or at `ℤ` for concrete
  evaluations).
* The compile-time `USE_CBLAS` switch is `0` (the repository's default
  build: `ENABLE_BLAS` is `OFF`), so the embedded code is the fallback
  (non-accelerated) path.  The worker threads of a kernel call write
  disjoint ranges and are joined before the call returns; the sequential
  fold over the chunk list is the faithful sequentialisation.
* Exact ring arithmetic stands in for floating-point arithmetic.
-/

namespace Pennylane

namespace Util

variable {α : Type} [CommRing α] [StarRing α]

/-- `#define DOTU_STD_CROSSOVER (1 << 20)` from `Util.hpp`. -/
def DOTU_STD_CROSSOVER : ℕ := 2 ^ 20

/-- `#define DOTC_STD_CROSSOVER (1 << 20)` from `Util.hpp`. -/
def DOTC_STD_CROSSOVER : ℕ := 2 ^ 20

/-- The loop body of `partition` (`Util.hpp`): `rem` is the number of
remaining iterations (the C++ loop runs `i = 0 .. n-1`, so iteration `i`
has `rem = n - i`, and `i == n - 1` is `rem = 1`); `n1` is the running
lower bound.  Each iteration pushes `n2 = n1 + d`, except the last, which
pushes `data_size`. -/
def partAux (d data_size : ℕ) : ℕ → ℕ → List ℕ
  | 0, _ => []
  | rem + 1, n1 =>
    let n2 := if rem = 0 then data_size else n1 + d
    n2 :: partAux d data_size rem n2

/-- `partition(n, data_size)` from `Util.hpp`: boundary indices splitting
`[0, data_size)` into `n` chunks of size `data_size / n`, the last chunk
absorbing the remainder. -/
def partition (n data_size : ℕ) : List ℕ :=
  if n = 1 then [0, data_size]
  else 0 :: partAux (data_size / n) data_size n 0

/-- `_innerProd(v1, v2, result, l, r)` from `Util.hpp`: the partial
(unconjugated) inner product of `v1` and `v2` over the index range
`[l, r)`, accumulated sequentially.  (The C++ worker adds this partial sum
to the shared accumulator under a lock; the addition is performed by the
caller `innerProd` below.) -/
def innerProdPartial (v1 v2 : ℕ → α) (l r : ℕ) : α :=
  (List.range' l (r - l)).foldl (fun s i => s + v1 i * v2 i) 0

/-- `_innerProdC(v1, v2, result, l, r)` from `Util.hpp`: as
`innerProdPartial` but with the first operand conjugated
(`std::conj(*(v1 + i)) * *(v2 + i)`). -/
def innerProdCPartial (v1 v2 : ℕ → α) (l r : ℕ) : α :=
  (List.range' l (r - l)).foldl (fun s i => s + star (v1 i) * v2 i) 0

/-- `innerProd(v1, v2, data_size, nthreads)` from `Util.hpp`, non-CBLAS
path: if `data_size > DOTU_STD_CROSSOVER` a single sequential
`std::inner_product` pass, otherwise `partition` the index range into
`nthreads` chunks and sum the per-chunk partial sums (the C++ workers each
add their partial sum to `result` under a mutex; all are joined before the
function returns). -/
def innerProd (v1 v2 : ℕ → α) (data_size nthreads : ℕ) : α :=
  if DOTU_STD_CROSSOVER < data_size then
    (List.range' 0 data_size).foldl (fun s i => s + v1 i * v2 i) 0
  else
    let bnd := partition nthreads data_size
    (List.range nthreads).foldl
      (fun result i =>
        result + innerProdPartial v1 v2 (bnd.getD i 0) (bnd.getD (i + 1) 0)) 0

/-- `innerProdC(v1, v2, data_size, nthreads)` from `Util.hpp`, non-CBLAS
path, with the first operand conjugated. -/
def innerProdC (v1 v2 : ℕ → α) (data_size nthreads : ℕ) : α :=
  if DOTC_STD_CROSSOVER < data_size then
    (List.range' 0 data_size).foldl (fun s i => s + star (v1 i) * v2 i) 0
  else
    let bnd := partition nthreads data_size
    (List.range nthreads).foldl
      (fun result i =>
        result + innerProdCPartial v1 v2 (bnd.getD i 0) (bnd.getD (i + 1) 0)) 0

/-- The `std::vector` overload of `innerProd` from `Util.hpp`:
`innerProd(v1.data(), v2.data(), v1.size())` with the default
`nthreads = 2`. -/
def innerProdVec (v1 v2 : List α) : α :=
  innerProd (fun i => v1.getD i 0) (fun i => v2.getD i 0) v1.length 2

/-- The `std::vector` overload of `innerProdC` from `Util.hpp`. -/
def innerProdCVec (v1 v2 : List α) : α :=
  innerProdC (fun i => v1.getD i 0) (fun i => v2.getD i 0) v1.length 2

/-- `dimSize(data)` from `Util.hpp`: validates that the data size is at
least 4, a power of two (`s & (s-1)` test) and a perfect square, then
returns `log2(floor(sqrt(s)))`.  A C++ `throw` is an `Except.error`. -/
def dimSize (data : List α) : Except String ℕ :=
  let s := data.length
  let s_sqrt := Nat.sqrt s
  if s < 4 then Except.error "The dataset must be at least 2x2"
  else if s = 0 ∨ s &&& (s - 1) ≠ 0 then
    Except.error "The dataset must be a power of 2"
  else if s_sqrt * s_sqrt ≠ s then
    Except.error "The dataset must be a perfect square"
  else Except.ok (Nat.log2 s_sqrt)

/-- `_matrixVecProd(mat, v_in, v_out, m, n, left, right, transpose)` from
`Util.hpp`: for each row `r` in `[left, right)` accumulate
`v_out[r] += mat[..] * v_in[c]` over all columns `c < n`, reading
`mat[c*m + r]` in the transposed case and `mat[r*n + c]` otherwise.  Rows
outside `[left, right)` are untouched. -/
def matrixVecProdPartial (mat v_in v_out : ℕ → α) (m n left right : ℕ)
    (transpose : Bool) : ℕ → α :=
  if transpose then
    fun r =>
      if left ≤ r ∧ r < right then
        (List.range n).foldl (fun acc c => acc + mat (c * m + r) * v_in c) (v_out r)
      else v_out r
  else
    fun r =>
      if left ≤ r ∧ r < right then
        (List.range n).foldl (fun acc c => acc + mat (r * n + c) * v_in c) (v_out r)
      else v_out r

/-- The non-null, non-CBLAS body of `matrixVecProd` from `Util.hpp`: the
row range `[0, m)` is partitioned into `nthreads` chunks and each chunk is
processed by `_matrixVecProd`. -/
def matrixVecProdRun (mat v_in v_out : ℕ → α) (m n nthreads : ℕ)
    (transpose : Bool) : ℕ → α :=
  let bnd := partition nthreads m
  (List.range nthreads).foldl
    (fun o i =>
      matrixVecProdPartial mat v_in o m n (bnd.getD i 0) (bnd.getD (i + 1) 0) transpose)
    v_out

/-- `matrixVecProd(mat, v_in, v_out, m, n, nthreads, transpose)` from
`Util.hpp`: `if (!v_out) return;` — a null output pointer is a silent
no-op — otherwise the partitioned fallback runs. -/
def matrixVecProd (mat v_in : ℕ → α) (v_out : Option (ℕ → α))
    (m n nthreads : ℕ) (transpose : Bool) : Option (ℕ → α) :=
  match v_out with
  | none => none
  | some out => some (matrixVecProdRun mat v_in out m n nthreads transpose)

/-- `_matrixMatProd_tp(m_left, m_right, m_out, m, n, k, left, right)` from
`Util.hpp`: for rows `r` in `[left, right)` and columns `c < n`,
accumulate `m_out[r*n + c] += m_left[r*k + b] * m_right[c*n + b]` over
`b < k` (note the `c*n + b` indexing of `m_right`). -/
def matrixMatProdPartial_tp (m_left m_right m_out : ℕ → α)
    (m n k left right : ℕ) : ℕ → α :=
  (List.range' left (right - left)).foldl
    (fun o r =>
      (List.range n).foldl
        (fun o2 c =>
          Function.update o2 (r * n + c)
            (o2 (r * n + c) +
              (List.range k).foldl
                (fun s b => s + m_left (r * k + b) * m_right (c * n + b)) 0))
        o)
    m_out

/-- `_matrixMatProd(m_left, m_right, m_out, m, n, k, left, right)` from
`Util.hpp`: for rows `r` in `[left, right)` and columns `c < n`,
accumulate the standard product term
`m_out[r*n + c] += m_left[r*k + b] * m_right[b*n + c]` over `b < k`. -/
def matrixMatProdPartial (m_left m_right m_out : ℕ → α)
    (m n k left right : ℕ) : ℕ → α :=
  (List.range' left (right - left)).foldl
    (fun o r =>
      (List.range n).foldl
        (fun o2 c =>
          Function.update o2 (r * n + c)
            (o2 (r * n + c) +
              (List.range k).foldl
                (fun s b => s + m_left (r * k + b) * m_right (b * n + c)) 0))
        o)
    m_out

/-- The non-null, non-CBLAS body of `matrixMatProd` from `Util.hpp`.  The
source dispatches `_matrixMatProd` when `transpose` is `true` and
`_matrixMatProd_tp` when it is `false` (exactly as written there). -/
def matrixMatProdRun (m_left m_right m_out : ℕ → α) (m n k nthreads : ℕ)
    (transpose : Bool) : ℕ → α :=
  let bnd := partition nthreads m
  if transpose then
    (List.range nthreads).foldl
      (fun o i =>
        matrixMatProdPartial m_left m_right o m n k (bnd.getD i 0) (bnd.getD (i + 1) 0))
      m_out
  else
    (List.range nthreads).foldl
      (fun o i =>
        matrixMatProdPartial_tp m_left m_right o m n k (bnd.getD i 0) (bnd.getD (i + 1) 0))
      m_out

/-- `matrixMatProd(m_left, m_right, m_out, m, n, k, nthreads, transpose)`
from `Util.hpp`: `if (!m_out) return;` then the partitioned fallback. -/
def matrixMatProd (m_left m_right : ℕ → α) (m_out : Option (ℕ → α))
    (m n k nthreads : ℕ) (transpose : Bool) : Option (ℕ → α) :=
  match m_out with
  | none => none
  | some out => some (matrixMatProdRun m_left m_right out m n k nthreads transpose)

/-- The base-case double loop of `CFTranspose` from `Util.hpp`: for
`r ∈ [m1, m2)` and `s ∈ [n1, n2)`, write `mat_t[s*m + r] = mat[r*n + s]`. -/
def transBase (mat mat_t : ℕ → α) (m n m1 m2 n1 n2 : ℕ) : ℕ → α :=
  (List.range' m1 (m2 - m1)).foldl
    (fun o r =>
      (List.range' n1 (n2 - n1)).foldl
        (fun o2 s => Function.update o2 (s * m + r) (mat (r * n + s))) o)
    mat_t

/-- `CFTranspose(mat, mat_t, m, n, m1, m2, n1, n2)` from `Util.hpp`: the
recursive cache-friendly blocked transpose with `BLOCK_THRESHOLD = 16`.
The `goto tail` loop is unfolded into recursion: if the row extent is at
least the column extent and exceeds the threshold, transpose the rows
`[m1, (m1+m2)/2)` first and then continue with rows `[(m1+m2)/2, m2)`;
symmetrically for columns; otherwise run the base double loop. -/
def CFTranspose (mat mat_t : ℕ → α) (m n m1 m2 n1 n2 : ℕ) : ℕ → α :=
  if h1 : n2 - n1 ≤ m2 - m1 ∧ 16 < m2 - m1 then
    CFTranspose mat (CFTranspose mat mat_t m n m1 ((m1 + m2) / 2) n1 n2)
      m n ((m1 + m2) / 2) m2 n1 n2
  else if h2 : 16 < n2 - n1 then
    CFTranspose mat (CFTranspose mat mat_t m n m1 m2 n1 ((n1 + n2) / 2))
      m n m1 m2 ((n1 + n2) / 2) n2
  else
    transBase mat mat_t m n m1 m2 n1 n2
termination_by (m2 - m1) + (n2 - n1)
decreasing_by
  · have hlt : m1 < m2 := by omega
    have hub : (m1 + m2) / 2 < m2 := by
      rw [Nat.div_lt_iff_lt_mul (by omega : 0 < 2)]
      omega
    have hlb : m1 ≤ (m1 + m2) / 2 := by
      rw [Nat.le_div_iff_mul_le (by omega : 0 < 2)]
      omega
    omega
  · have hub : (m1 + m2) / 2 < m2 := by
      rw [Nat.div_lt_iff_lt_mul (by omega : 0 < 2)]
      omega
    have hlb : m1 + 1 ≤ (m1 + m2) / 2 := by
      rw [Nat.le_div_iff_mul_le (by omega : 0 < 2)]
      omega
    omega
  · have hub : (n1 + n2) / 2 < n2 := by
      rw [Nat.div_lt_iff_lt_mul (by omega : 0 < 2)]
      omega
    have hlb : n1 ≤ (n1 + n2) / 2 := by
      rw [Nat.le_div_iff_mul_le (by omega : 0 < 2)]
      omega
    omega
  · have hub : (n1 + n2) / 2 < n2 := by
      rw [Nat.div_lt_iff_lt_mul (by omega : 0 < 2)]
      omega
    have hlb : n1 + 1 ≤ (n1 + n2) / 2 := by
      rw [Nat.le_div_iff_mul_le (by omega : 0 < 2)]
      omega
    omega

/-- `Transpose(mat, mat_t, m, n)` from `Util.hpp`: the blocked transpose
over the full index rectangle. -/
def Transpose (mat mat_t : ℕ → α) (m n : ℕ) : ℕ → α :=
  CFTranspose mat mat_t m n 0 m 0 n

/-- The naive double-loop transpose the specification compares against
("result bit-identical to the naive double loop"): for every `r < m` and
`s < n`, write `mat_t[s*m + r] = mat[r*n + s]`. -/
def naiveTranspose (mat mat_t : ℕ → α) (m n : ℕ) : ℕ → α :=
  (List.range m).foldl
    (fun o r =>
      (List.range n).foldl
        (fun o2 s => Function.update o2 (s * m + r) (mat (r * n + s))) o)
    mat_t

/-- `LightningException` from `Error.hpp`: carries the error message
returned by `what()`. -/
structure LightningException where
  err_msg : String

/-- `LightningException::what()` from `Error.hpp`. -/
def LightningException.what (e : LightningException) : String := e.err_msg

/-- `Abort(message, file_name, line, function_name)` from `Error.hpp`:
builds `"[file][Line:line][Method:function]: Error in PennyLane
Lightning: message"` and throws a `LightningException`.  The
unconditional C++ `throw` is an unconditional `Except.error`. -/
def Abort (message file_name : String) (line : Int) (function_name : String) :
    Except LightningException Unit :=
  Except.error
    ⟨"[" ++ file_name ++ "][Line:" ++ toString line ++ "][Method:" ++
      function_name ++ "]: Error in PennyLane Lightning: " ++ message⟩

end Util

namespace Algorithms

/-- Modelled from the spec: the state-vector engine (`StateVector.hpp`) is
not part of the provided sources; per the spec a 1-qubit state is an
amplitude buffer of `2^1` complex numbers. The single-qubit rotation gate
`RX(θ) = exp(-i θ X / 2)` "mixes exactly two amplitudes with 2×2
coefficients derived from its single rotation angle":
`RX(θ) = [[cos(θ/2), -i·sin(θ/2)], [-i·sin(θ/2), cos(θ/2)]]`. -/
noncomputable def applyRX (θ : ℝ) (ψ : List ℂ) : List ℂ :=
  [(Real.cos (θ / 2) : ℂ) * ψ.getD 0 0 - Complex.I * (Real.sin (θ / 2) : ℂ) * ψ.getD 1 0,
   -(Complex.I * (Real.sin (θ / 2) : ℂ)) * ψ.getD 0 0 + (Real.cos (θ / 2) : ℂ) * ψ.getD 1 0]

/-- Modelled from the spec: the `PauliZ` observable on the single wire of a
1-qubit state (`Gates.hpp` is not part of the provided sources):
`Z = [[1, 0], [0, -1]]`. -/
noncomputable def applyPauliZ (ψ : List ℂ) : List ℂ :=
  [ψ.getD 0 0, -ψ.getD 1 0]

/-- Modelled from the spec: the `PauliX` operator, the Hermitian generator
of the `RX` rotation ("the corresponding Pauli operator for single-qubit
rotations"): `X = [[0, 1], [1, 0]]`. -/
noncomputable def applyPauliX (ψ : List ℂ) : List ℂ :=
  [ψ.getD 1 0, ψ.getD 0 0]

/-- Modelled from the spec: `AdjointJacobian::adjointJacobian`
(`AdjointDiff.hpp` is not part of the provided sources) specialised to the
spec's end-to-end scenario — 1 qubit, initial state `|0⟩`, circuit
`[RX(θ)]` with the single gate trainable, observable `PauliZ` on wire 0.
Forward pass: `ψ_T = RX(θ)|0⟩`.  Bra initialisation: `λ = PauliZ·ψ_T`.
Backward sweep over the single gate: the derivative of `RX(θ)` is
`i · scaling · X · RX(θ)` with `scaling = -1/2` (from
`RX(θ) = exp(-i θ X/2)`), so the generator `X` is applied to a scratch
copy of the ket and `2 · scaling · Re(⟨λ| i · X |ket⟩)` is accumulated
into the zero-initialised 1×1 Jacobian buffer, using the conjugated inner
product of the math-kernel layer. -/
noncomputable def adjointJacobianRX (θ : ℝ) : List ℝ :=
  let ψT := applyRX θ [1, 0]
  let lam := applyPauliZ ψT
  let mu := applyPauliX ψT
  let scaling : ℝ := -(1 / 2)
  [0 + 2 * scaling * (Complex.I * Util.innerProdCVec lam mu).re]

end Algorithms

/-! ## Helper lemmas about the embedded kernels -/

namespace Util

variable {α : Type} [CommRing α] [StarRing α]

/-- A left fold that adds `f i` for each `i` in `[l, l+c)` computes the
initial value plus the sum. -/
theorem foldl_add_range' (f : ℕ → α) :
    ∀ (c l : ℕ) (a : α),
      (List.range' l c).foldl (fun s i => s + f i) a =
        a + ∑ j ∈ Finset.range c, f (l + j) := by
  intro c
  induction c with
  | zero => intro l a; simp
  | succ c ih =>
    intro l a
    rw [List.range'_succ, List.foldl_cons, ih (l + 1) (a + f l),
      Finset.sum_range_succ']
    have hs : ∑ j ∈ Finset.range c, f (l + 1 + j) =
        ∑ j ∈ Finset.range c, f (l + (j + 1)) :=
      Finset.sum_congr rfl (fun j _ => by rw [show l + 1 + j = l + (j + 1) from by omega])
    rw [hs, Nat.add_zero]
    ring

/-- Version of `foldl_add_range'` for `List.range`. -/
theorem foldl_add_range (g : ℕ → α) (k : ℕ) (a : α) :
    (List.range k).foldl (fun s i => s + g i) a = a + ∑ i ∈ Finset.range k, g i := by
  rw [List.range_eq_range', foldl_add_range']
  simp

/-- The partial inner product over `[l, r)` is the corresponding interval
sum. -/
theorem innerProdPartial_eq_sum (v1 v2 : ℕ → α) (l r : ℕ) :
    innerProdPartial v1 v2 l r = ∑ i ∈ Finset.Ico l r, v1 i * v2 i := by
  rw [innerProdPartial, foldl_add_range', zero_add, Finset.sum_Ico_eq_sum_range]

/-- The conjugated partial inner product over `[l, r)` is the
corresponding interval sum. -/
theorem innerProdCPartial_eq_sum (v1 v2 : ℕ → α) (l r : ℕ) :
    innerProdCPartial v1 v2 l r = ∑ i ∈ Finset.Ico l r, star (v1 i) * v2 i := by
  rw [innerProdCPartial, foldl_add_range', zero_add, Finset.sum_Ico_eq_sum_range]

/-- `partAux` produces exactly `rem` boundaries. -/
theorem partAux_length (d data_size : ℕ) :
    ∀ (rem n1 : ℕ), (partAux d data_size rem n1).length = rem := by
  intro rem
  induction rem with
  | zero => intro n1; rfl
  | succ rem ih => intro n1; simp [partAux, ih]

/-- Closed form of the `partAux` boundaries: entry `j` is `n1 + (j+1)·d`,
except the final entry, which is `data_size`. -/
theorem partAux_getD (d data_size : ℕ) :
    ∀ (rem n1 j : ℕ), j < rem →
      (partAux d data_size rem n1).getD j 0 =
        if j + 1 = rem then data_size else n1 + (j + 1) * d := by
  intro rem
  induction rem with
  | zero => intro n1 j h; omega
  | succ rem ih =>
    intro n1 j hj
    cases j with
    | zero =>
      simp only [partAux, List.getD_cons_zero]
      rcases Nat.eq_zero_or_pos rem with h0 | hpos
      · simp [h0]
      · rw [if_neg (by omega), if_neg (by omega)]
        ring
    | succ j =>
      have hrem : 1 ≤ rem := by omega
      have hlast : ¬rem = 0 := by omega
      simp only [partAux, List.getD_cons_succ, if_neg hlast]
      rw [ih (n1 + d) j (by omega)]
      rcases eq_or_ne (j + 1) rem with he | hne
      · rw [if_pos he, if_pos (by omega)]
      · rw [if_neg hne, if_neg (by omega)]
        ring

/-- `partition` always returns `n + 1` boundaries. -/
theorem partition_length (n data_size : ℕ) :
    (partition n data_size).length = n + 1 := by
  rw [partition]
  split
  · simp_all
  · simp [partAux_length]

/-- Closed form of the `partition` boundaries for `n ≥ 1`: `0`, then
`i · (data_size / n)` for `0 < i < n`, then `data_size`. -/
theorem partition_getD {n : ℕ} (data_size : ℕ) (hn : 1 ≤ n) {i : ℕ} (hi : i ≤ n) :
    (partition n data_size).getD i 0 =
      if i = 0 then 0 else if i = n then data_size else i * (data_size / n) := by
  rw [partition]
  rcases eq_or_ne n 1 with h1 | h1
  · subst h1
    interval_cases i <;> simp
  · rw [if_neg h1]
    cases i with
    | zero => simp
    | succ i =>
      simp only [List.getD_cons_succ]
      rw [partAux_getD _ _ n 0 i (by omega)]
      rcases eq_or_ne (i + 1) n with he | hne
      · rw [if_pos he, if_neg (by omega), if_pos he]
      · rw [if_neg hne, if_neg (by omega), if_neg hne, Nat.zero_add]

/-- Consecutive `partition` boundaries are non-decreasing. -/
theorem partition_getD_mono {n : ℕ} (data_size : ℕ) (hn : 1 ≤ n) {i : ℕ} (hi : i < n) :
    (partition n data_size).getD i 0 ≤ (partition n data_size).getD (i + 1) 0 := by
  rw [partition_getD data_size hn (by omega : i ≤ n),
    partition_getD data_size hn (by omega : i + 1 ≤ n)]
  have hmul : n * (data_size / n) ≤ data_size := Nat.mul_div_le data_size n
  rcases eq_or_ne i 0 with h0 | h0
  · simp [h0]
  · rw [if_neg h0, if_neg (by omega)]
    rcases eq_or_ne (i + 1) n with he | hne
    · rw [if_pos he]
      calc i * (data_size / n) ≤ n * (data_size / n) :=
            Nat.mul_le_mul_right _ (by omega)
        _ ≤ data_size := hmul
    · rw [if_neg hne]
      exact Nat.mul_le_mul_right _ (by omega)

/-- First boundary of any non-decreasing chain bounds any later one. -/
theorem getD_zero_le_of_mono {b : ℕ → ℕ} {k : ℕ}
    (hmono : ∀ i < k, b i ≤ b (i + 1)) : ∀ i ≤ k, b 0 ≤ b i := by
  intro i
  induction i with
  | zero => intro _; exact Nat.le_refl _
  | succ i ih =>
    intro hik
    exact Nat.le_trans (ih (by omega)) (hmono i (by omega))

/-- Summing interval sums over consecutive chunk boundaries telescopes to
the sum over the full interval. -/
theorem sum_chunks (f : ℕ → α) (b : ℕ → ℕ) :
    ∀ (k : ℕ), (∀ i < k, b i ≤ b (i + 1)) →
      ∑ i ∈ Finset.range k, (∑ j ∈ Finset.Ico (b i) (b (i + 1)), f j) =
        ∑ j ∈ Finset.Ico (b 0) (b k), f j := by
  intro k
  induction k with
  | zero => intro _; simp
  | succ k ih =>
    intro hmono
    rw [Finset.sum_range_succ, ih (fun i hi => hmono i (by omega)),
      Finset.sum_Ico_consecutive]
    · exact getD_zero_le_of_mono hmono k (by omega)
    · exact hmono k (by omega)

/-- The fallback `innerProd` computes the direct sequential dot product,
on either internal branch, for any positive thread count. -/
theorem innerProd_eq_sum (v1 v2 : ℕ → α) (data_size nthreads : ℕ)
    (hn : 1 ≤ nthreads) :
    innerProd v1 v2 data_size nthreads = ∑ i ∈ Finset.range data_size, v1 i * v2 i := by
  rw [innerProd]
  split
  · rw [foldl_add_range' _ data_size 0 0, zero_add]
    simp
  · rw [foldl_add_range]
    rw [zero_add]
    have hb : ∀ i < nthreads,
        (partition nthreads data_size).getD i 0 ≤
          (partition nthreads data_size).getD (i + 1) 0 :=
      fun i hi => partition_getD_mono data_size hn hi
    calc ∑ i ∈ Finset.range nthreads,
          innerProdPartial v1 v2 ((partition nthreads data_size).getD i 0)
            ((partition nthreads data_size).getD (i + 1) 0)
        = ∑ i ∈ Finset.range nthreads,
            ∑ j ∈ Finset.Ico ((partition nthreads data_size).getD i 0)
              ((partition nthreads data_size).getD (i + 1) 0), v1 j * v2 j :=
          Finset.sum_congr rfl (fun i _ => innerProdPartial_eq_sum v1 v2 _ _)
      _ = ∑ j ∈ Finset.Ico ((partition nthreads data_size).getD 0 0)
            ((partition nthreads data_size).getD nthreads 0), v1 j * v2 j :=
          sum_chunks _ _ nthreads hb
      _ = ∑ i ∈ Finset.range data_size, v1 i * v2 i := by
          rw [partition_getD data_size hn (by omega : 0 ≤ nthreads),
            partition_getD data_size hn (Nat.le_refl nthreads)]
          rw [if_pos rfl, if_neg (by omega), if_pos rfl]
          rw [← Nat.Ico_zero_eq_range]

/-- The fallback `innerProdC` computes the direct sequential conjugated
dot product, on either internal branch, for any positive thread count. -/
theorem innerProdC_eq_sum (v1 v2 : ℕ → α) (data_size nthreads : ℕ)
    (hn : 1 ≤ nthreads) :
    innerProdC v1 v2 data_size nthreads =
      ∑ i ∈ Finset.range data_size, star (v1 i) * v2 i := by
  rw [innerProdC]
  split
  · rw [foldl_add_range' _ data_size 0 0, zero_add]
    simp
  · rw [foldl_add_range]
    rw [zero_add]
    have hb : ∀ i < nthreads,
        (partition nthreads data_size).getD i 0 ≤
          (partition nthreads data_size).getD (i + 1) 0 :=
      fun i hi => partition_getD_mono data_size hn hi
    calc ∑ i ∈ Finset.range nthreads,
          innerProdCPartial v1 v2 ((partition nthreads data_size).getD i 0)
            ((partition nthreads data_size).getD (i + 1) 0)
        = ∑ i ∈ Finset.range nthreads,
            ∑ j ∈ Finset.Ico ((partition nthreads data_size).getD i 0)
              ((partition nthreads data_size).getD (i + 1) 0), star (v1 j) * v2 j :=
          Finset.sum_congr rfl (fun i _ => innerProdCPartial_eq_sum v1 v2 _ _)
      _ = ∑ j ∈ Finset.Ico ((partition nthreads data_size).getD 0 0)
            ((partition nthreads data_size).getD nthreads 0), star (v1 j) * v2 j :=
          sum_chunks _ _ nthreads hb
      _ = ∑ i ∈ Finset.range data_size, star (v1 i) * v2 i := by
          rw [partition_getD data_size hn (by omega : 0 ≤ nthreads),
            partition_getD data_size hn (Nat.le_refl nthreads)]
          rw [if_pos rfl, if_neg (by omega), if_pos rfl]
          rw [← Nat.Ico_zero_eq_range]

/-- A power of two has no bit in common with its predecessor. -/
theorem two_pow_land_pred (j : ℕ) : 2 ^ j &&& (2 ^ j - 1) = 0 := by
  apply Nat.eq_of_testBit_eq
  intro i
  rw [Nat.testBit_and, Nat.zero_testBit, Nat.testBit_two_pow_sub_one,
    Nat.testBit_two_pow]
  by_cases h : j = i <;> simp [h]

/-- A nonzero number with no bit in common with its predecessor is a power
of two. -/
theorem exists_pow_of_land_pred :
    ∀ s : ℕ, s ≠ 0 → s &&& (s - 1) = 0 → ∃ j, s = 2 ^ j := by
  intro s
  induction s using Nat.strong_induction_on with
  | _ s ih =>
    intro hs h
    rcases Nat.even_or_odd s with ⟨t, ht⟩ | ⟨u, hu⟩
    · have ht2 : s = 2 * t := by omega
      have htn : t ≠ 0 := by omega
      have hdiv : s / 2 = t := by omega
      have hdiv1 : (s - 1) / 2 = t - 1 := by omega
      have htland : t &&& (t - 1) = 0 := by
        apply Nat.eq_of_testBit_eq
        intro i
        have : (s &&& (s - 1)).testBit (i + 1) = false := by
          rw [h]; exact Nat.zero_testBit _
        rw [Nat.testBit_and, Nat.testBit_add_one, Nat.testBit_add_one, hdiv, hdiv1]
          at this
        rw [Nat.testBit_and, Nat.zero_testBit, this]
      obtain ⟨j, hj⟩ := ih t (by omega) htn htland
      exact ⟨j + 1, by rw [ht2, hj, pow_succ, Nat.mul_comm]⟩
    · rcases eq_or_ne s 1 with h1 | h1
      · exact ⟨0, by simpa using h1⟩
      · exfalso
        have hu0 : u ≠ 0 := by omega
        obtain ⟨i, hi⟩ := Nat.ne_zero_implies_bit_true hu0
        have hdiv : s / 2 = u := by omega
        have hdiv1 : (s - 1) / 2 = u := by omega
        have : (s &&& (s - 1)).testBit (i + 1) = true := by
          rw [Nat.testBit_and, Nat.testBit_add_one, Nat.testBit_add_one, hdiv,
            hdiv1, hi, Bool.and_self]
        rw [h, Nat.zero_testBit] at this
        exact Bool.false_ne_true this

end Util

/-! ## Claim theorems -/

namespace Util

variable {α : Type} [CommRing α] [StarRing α]

/-- C10: for every `n ≥ 1` and every `data_size ≥ 0` — including
`data_size < n`, where all but the last chunk are empty —
`partition(n, data_size)` returns a vector of exactly `n + 1` boundaries
that is non-decreasing, starts at `0`, and ends at `data_size`, so the `n`
consecutive boundary pairs form disjoint index ranges that together cover
`[0, data_size)` exactly once. -/
theorem partition_boundaries (n data_size : ℕ) (hn : 1 ≤ n) :
    (partition n data_size).length = n + 1 ∧
    (∀ i < n, (partition n data_size).getD i 0 ≤ (partition n data_size).getD (i + 1) 0) ∧
    (partition n data_size).getD 0 0 = 0 ∧
    (partition n data_size).getD n 0 = data_size := by
  refine ⟨partition_length n data_size, fun i hi => partition_getD_mono data_size hn hi, ?_, ?_⟩
  · rw [partition_getD data_size hn (by omega : 0 ≤ n), if_pos rfl]
  · rw [partition_getD data_size hn (Nat.le_refl n), if_neg (by omega), if_pos rfl]

/-- Witness for C10 at `n = 3`, `data_size = 2` (a `data_size < n`
instance). -/
theorem partition_boundaries_witness :
    (Util.partition 3 2).length = 3 + 1 ∧ (Util.partition 3 2).getD 3 0 = 2 :=
  ⟨(partition_boundaries 3 2 (by norm_num)).1,
   (partition_boundaries 3 2 (by norm_num)).2.2.2⟩

/-- C5: for every pair of vectors (of conceptually equal length
`data_size`) and every `nthreads ≥ 1`, the non-accelerated
`innerProd(v1, v2)` and `innerProdC(v1, v2)` (the latter conjugating the
first operand) return exactly the direct sequential dot product
`∑ i, v1[i]·v2[i]` (respectively `∑ i, conj(v1[i])·v2[i]`), independent of
`nthreads` and of whether the threaded-partition branch or the large-size
sequential branch is taken. -/
theorem innerProd_eq_direct_dot (v1 v2 : ℕ → α) (data_size nthreads : ℕ)
    (hn : 1 ≤ nthreads) :
    innerProd v1 v2 data_size nthreads = ∑ i ∈ Finset.range data_size, v1 i * v2 i ∧
    innerProdC v1 v2 data_size nthreads =
      ∑ i ∈ Finset.range data_size, star (v1 i) * v2 i :=
  ⟨innerProd_eq_sum v1 v2 data_size nthreads hn,
   innerProdC_eq_sum v1 v2 data_size nthreads hn⟩

/-- Witness for C5 at a concrete integer input with `data_size = 3`,
`nthreads = 2`. -/
theorem innerProd_eq_direct_dot_witness :
    Util.innerProd (fun i => (i : ℤ) + 1) (fun i => (i : ℤ)) 3 2 =
      ∑ i ∈ Finset.range 3, ((i : ℤ) + 1) * (i : ℤ) ∧
    Util.innerProdC (fun i => (i : ℤ) + 1) (fun i => (i : ℤ)) 3 2 =
      ∑ i ∈ Finset.range 3, star ((i : ℤ) + 1) * (i : ℤ) :=
  innerProd_eq_direct_dot (fun i => (i : ℤ) + 1) (fun i => (i : ℤ)) 3 2 (by norm_num)

/-- C7: for every input, calling `matrixVecProd` or `matrixMatProd` with a
null output pointer returns normally without raising any error and without
modifying any memory (a silent no-op). -/
theorem matrixProd_null_out_noop (mat v_in m_left m_right : ℕ → α)
    (m n k nthreads : ℕ) (transpose : Bool) :
    matrixVecProd mat v_in none m n nthreads transpose = none ∧
    matrixMatProd m_left m_right none m n k nthreads transpose = none :=
  ⟨rfl, rfl⟩

/-- C9: for every message, file name, line number and function name,
`Abort` always throws a `LightningException` (it never returns), and the
`what()` string of the thrown exception contains the file name, the line
number, the function name, and the given message. -/
theorem abort_always_throws (message file_name : String) (line : Int)
    (function_name : String) :
    ∃ e : LightningException,
      Abort message file_name line function_name = Except.error e ∧
      (∃ p q, e.what = p ++ file_name ++ q) ∧
      (∃ p q, e.what = p ++ toString line ++ q) ∧
      (∃ p q, e.what = p ++ function_name ++ q) ∧
      (∃ p q, e.what = p ++ message ++ q) := by
  refine ⟨_, rfl,
    ⟨"[", "][Line:" ++ toString line ++ "][Method:" ++ function_name ++
      "]: Error in PennyLane Lightning: " ++ message, ?_⟩,
    ⟨"[" ++ file_name ++ "][Line:", "][Method:" ++ function_name ++
      "]: Error in PennyLane Lightning: " ++ message, ?_⟩,
    ⟨"[" ++ file_name ++ "][Line:" ++ toString line ++ "][Method:",
      "]: Error in PennyLane Lightning: " ++ message, ?_⟩,
    ⟨"[" ++ file_name ++ "][Line:" ++ toString line ++ "][Method:" ++
      function_name ++ "]: Error in PennyLane Lightning: ", "", ?_⟩⟩ <;>
    simp [LightningException.what, String.append_assoc, String.append_empty]

/-- C1 (counterexample): `innerProd(v, v)` does not conjugate, so for
`v = [i]` it returns `i·i = -1`, not the sum of squared magnitudes `1`. -/
theorem innerProd_self_not_normSq_cex :
    Util.innerProdVec [Complex.I] [Complex.I] ≠
      ∑ i ∈ Finset.range ([Complex.I] : List ℂ).length,
        (Complex.normSq (([Complex.I] : List ℂ).getD i 0) : ℂ) := by
  rw [innerProdVec, innerProd_eq_sum _ _ _ 2 (by norm_num)]
  simp [Complex.ext_iff, Complex.I_mul_I]
  norm_num

/-- C1 (amended): for every complex vector `v`, the fallback
`innerProd(v, v)` (on either of its code paths) equals the sum of the
*squares* of the entries of `v` — no conjugation is applied — while the
conjugating variant `innerProdC(v, v)` equals the sum of the squared
magnitudes of the entries of `v`. -/
theorem innerProd_self_eq_sum_sq (v : List ℂ) :
    innerProdVec v v = ∑ i ∈ Finset.range v.length, v.getD i 0 ^ 2 ∧
    innerProdCVec v v =
      ∑ i ∈ Finset.range v.length, (Complex.normSq (v.getD i 0) : ℂ) := by
  constructor
  · rw [innerProdVec, innerProd_eq_sum _ _ _ 2 (by norm_num)]
    exact Finset.sum_congr rfl (fun i _ => (pow_two _).symm)
  · rw [innerProdCVec, innerProdC_eq_sum _ _ _ 2 (by norm_num)]
    refine Finset.sum_congr rfl (fun i _ => ?_)
    rw [Complex.normSq_eq_conj_mul_self, Complex.star_def]

/-- C8: `dimSize(data)` returns normally if and only if `data.size()`
equals `4^k` for some `k ≥ 1`, in which case it returns `k`; for every
other size it throws a validation error. -/
theorem dimSize_ok_iff (data : List α) :
    ((∃ k, dimSize data = Except.ok k) ↔ (∃ k, 1 ≤ k ∧ data.length = 4 ^ k)) ∧
    (∀ k, 1 ≤ k → data.length = 4 ^ k → dimSize data = Except.ok k) := by
  have hfwd : ∀ k, 1 ≤ k → data.length = 4 ^ k → dimSize data = Except.ok k := by
    intro k hk hlen
    have h4 : data.length = 2 ^ k * 2 ^ k := by
      rw [hlen, ← pow_add, ← two_mul, pow_mul]
      norm_num
    have hge : 4 ≤ data.length := by
      rw [hlen]
      calc 4 = 4 ^ 1 := (pow_one 4).symm
        _ ≤ 4 ^ k := Nat.pow_le_pow_right (by norm_num) hk
    have hsqrt : Nat.sqrt data.length = 2 ^ k := by rw [h4, Nat.sqrt_eq]
    have hland : data.length &&& (data.length - 1) = 0 := by
      have : data.length = 2 ^ (2 * k) := by rw [hlen, pow_mul]; norm_num
      rw [this]
      exact two_pow_land_pred _
    rw [dimSize]
    simp only [if_neg (by omega : ¬data.length < 4),
      if_neg (show ¬(data.length = 0 ∨ data.length &&& (data.length - 1) ≠ 0) by
        push_neg
        exact ⟨by omega, hland⟩),
      hsqrt]
    rw [if_neg (show ¬(2 ^ k * 2 ^ k ≠ data.length) by simp [h4]),
      Except.ok.injEq, Nat.log2_eq_log_two, Nat.log_pow (by norm_num)]
  refine ⟨⟨?_, ?_⟩, hfwd⟩
  · rintro ⟨k, hk⟩
    rw [dimSize] at hk
    split at hk
    · exact absurd hk (by simp)
    · split at hk
      · exact absurd hk (by simp)
      · split at hk
        · exact absurd hk (by simp)
        · rename_i hlt hpow hsq
          push_neg at hpow hsq
          obtain ⟨j, hj⟩ := exists_pow_of_land_pred data.length hpow.1 hpow.2
          have hdvd : Nat.sqrt data.length ∣ 2 ^ j := by
            rw [← hj]
            exact ⟨Nat.sqrt data.length, hsq.symm⟩
          obtain ⟨m, _, hm⟩ := (Nat.dvd_prime_pow Nat.prime_two).mp hdvd
          have hlen : data.length = 4 ^ m := by
            rw [← hsq, hm, ← pow_add, ← two_mul, pow_mul]
            norm_num
          refine ⟨m, ?_, hlen⟩
          by_contra hm0
          have : m = 0 := by omega
          rw [this] at hlen
          simp at hlen
          omega
  · rintro ⟨k, hk, hlen⟩
    exact ⟨k, hfwd k hk hlen⟩

/-- Witness for C8 at a concrete `4^2 = 16`-element input. -/
theorem dimSize_ok_iff_witness :
    Util.dimSize (List.replicate 16 (1 : ℤ)) = Except.ok 2 :=
  (dimSize_ok_iff (List.replicate 16 (1 : ℤ))).2 2 (by norm_num) (by simp)

/-- Pointwise behaviour of `_matrixVecProd` with `transpose = false`: rows
in `[left, right)` accumulate the row dot product, others are
untouched. -/
theorem matrixVecProdPartial_apply (mat v_in v_out : ℕ → α)
    (m n left right r : ℕ) :
    matrixVecProdPartial mat v_in v_out m n left right false r =
      if left ≤ r ∧ r < right then
        v_out r + ∑ c ∈ Finset.range n, mat (r * n + c) * v_in c
      else v_out r := by
  rw [matrixVecProdPartial]
  simp only [Bool.false_eq_true, if_false]
  split
  · rw [foldl_add_range]
  · rfl

/-- Folding `_matrixVecProd` chunks over non-decreasing boundaries updates
exactly the rows in `[b 0, b k)`, each once. -/
theorem foldl_mvPartial_apply (mat v_in : ℕ → α) (m n : ℕ) (b : ℕ → ℕ) :
    ∀ (k : ℕ) (v_out : ℕ → α) (r : ℕ), (∀ i < k, b i ≤ b (i + 1)) →
      ((List.range k).foldl
        (fun o i => matrixVecProdPartial mat v_in o m n (b i) (b (i + 1)) false)
        v_out) r =
        if b 0 ≤ r ∧ r < b k then
          v_out r + ∑ c ∈ Finset.range n, mat (r * n + c) * v_in c
        else v_out r := by
  intro k
  induction k with
  | zero =>
    intro v_out r _
    simp only [List.range_zero, List.foldl_nil]
    rw [if_neg (by omega)]
  | succ k ih =>
    intro v_out r hmono
    have hb0k : b 0 ≤ b k := getD_zero_le_of_mono hmono k (by omega)
    have hbk : b k ≤ b (k + 1) := hmono k (by omega)
    rw [List.range_succ, List.foldl_append, List.foldl_cons, List.foldl_nil,
      matrixVecProdPartial_apply,
      ih v_out r (fun i hi => hmono i (by omega))]
    split_ifs <;> first | rfl | omega

/-- The non-null fallback `matrixVecProd` body with `transpose = false`
leaves row `r < m` equal to its prior value plus the row dot product, for
any positive thread count. -/
theorem matrixVecProdRun_apply (mat v_in v_out : ℕ → α) (m n nthreads : ℕ)
    (hn : 1 ≤ nthreads) (r : ℕ) (hr : r < m) :
    matrixVecProdRun mat v_in v_out m n nthreads false r =
      v_out r + ∑ c ∈ Finset.range n, mat (r * n + c) * v_in c := by
  have h0 : (partition nthreads m).getD 0 0 = 0 := by
    rw [partition_getD m hn (by omega : 0 ≤ nthreads)]
    simp
  have hN : (partition nthreads m).getD nthreads 0 = m := by
    rw [partition_getD m hn (Nat.le_refl nthreads), if_neg (by omega), if_pos rfl]
  rw [matrixVecProdRun,
    foldl_mvPartial_apply mat v_in m n
      (fun i => (partition nthreads m).getD i 0) nthreads v_out r
      (fun i hi => partition_getD_mono m hn hi)]
  simp only [h0, hN]
  rw [if_pos ⟨Nat.zero_le r, hr⟩]

/-- C6: for every `m×n` matrix `mat`, input vector `v_in` of length `n`,
and output vector `v_out` of length `m` with arbitrary prior contents,
`matrixVecProd` with `transpose = false` leaves `v_out[r]` equal to its
prior value plus `∑_{c<n} mat[r·n+c] · v_in[c]` for every `r < m`: the
routine accumulates into `v_out` and never resets it. -/
theorem matrixVecProd_accumulates (mat v_in v_out : ℕ → α)
    (m n nthreads : ℕ) (hn : 1 ≤ nthreads) (r : ℕ) (hr : r < m) :
    ∀ g, matrixVecProd mat v_in (some v_out) m n nthreads false = some g →
      g r = v_out r + ∑ c ∈ Finset.range n, mat (r * n + c) * v_in c := by
  intro g hg
  rw [matrixVecProd, Option.some.injEq] at hg
  rw [← hg]
  exact matrixVecProdRun_apply mat v_in v_out m n nthreads hn r hr

/-- Witness for C6: a 2×2 integer matrix, `v_out` pre-filled with `7`,
`nthreads = 1`, row `0`. -/
theorem matrixVecProd_accumulates_witness :
    Util.matrixVecProdRun (fun i => (i : ℤ)) (fun _ => (1 : ℤ))
        (fun _ => (7 : ℤ)) 2 2 1 false 0 =
      (fun _ => (7 : ℤ)) 0 +
        ∑ c ∈ Finset.range 2, (fun i => (i : ℤ)) (0 * 2 + c) * (fun _ => (1 : ℤ)) c :=
  matrixVecProd_accumulates (fun i => (i : ℤ)) (fun _ => (1 : ℤ))
    (fun _ => (7 : ℤ)) 2 2 1 (by norm_num) 0 (by norm_num) _ rfl

/-- C2 (evaluation at the failing input): with `m = 1`, `n = 2`, `k = 2`,
`m_left = [1, 1]`, `m_right = [[0, 1], [2, 3]]` (row-major), a zeroed
output, `nthreads = 1` and `transpose = false`, the fallback
`matrixMatProd` writes `[1, 5]` — it dispatches `_matrixMatProd_tp`,
which reads `m_right[c*n + b]` — whereas the standard matrix-product
accumulation `∑_b m_left[r*k + b] · m_right[b*n + c]` yields `[2, 4]`. -/
theorem matrixMatProd_swapped_dispatch_eval :
    (Util.matrixMatProd (fun i => ([1, 1] : List ℤ).getD i 0)
        (fun i => ([0, 1, 2, 3] : List ℤ).getD i 0) (some (fun _ => 0))
        1 2 2 1 false).map (fun f => [f 0, f 1]) = some [1, 5] ∧
    [(fun _ => (0 : ℤ)) (0 * 2 + 0) +
        ∑ b ∈ Finset.range 2, ([1, 1] : List ℤ).getD (0 * 2 + b) 0 *
          ([0, 1, 2, 3] : List ℤ).getD (b * 2 + 0) 0,
     (fun _ => (0 : ℤ)) (0 * 2 + 1) +
        ∑ b ∈ Finset.range 2, ([1, 1] : List ℤ).getD (0 * 2 + b) 0 *
          ([0, 1, 2, 3] : List ℤ).getD (b * 2 + 1) 0] = [2, 4] := by
  constructor
  · decide
  · decide

/-- Pointwise behaviour of the inner (column) loop of the transpose base
case: processing columns `[l, l+c)` of row `r < m` writes
`mat_t[s*m + r] = mat[r*n + s]` for exactly those `s`. -/
theorem transCols_apply (mat : ℕ → α) (m n r : ℕ) (hm : r < m) :
    ∀ (c l : ℕ) (o : ℕ → α) (idx : ℕ),
      ((List.range' l c).foldl
        (fun o2 s => Function.update o2 (s * m + r) (mat (r * n + s))) o) idx =
      if idx % m = r ∧ l ≤ idx / m ∧ idx / m < l + c then mat (r * n + idx / m)
      else o idx := by
  intro c
  induction c with
  | zero =>
    intro l o idx
    rw [List.range'_zero, List.foldl_nil, if_neg (by omega)]
  | succ c ih =>
    intro l o idx
    rw [List.range'_succ, List.foldl_cons, ih (l + 1) _ idx]
    by_cases h1 : idx % m = r ∧ l + 1 ≤ idx / m ∧ idx / m < l + 1 + c
    · rw [if_pos h1, if_pos (by omega : idx % m = r ∧ l ≤ idx / m ∧ idx / m < l + (c + 1))]
    · rw [if_neg h1]
      by_cases h2 : idx = l * m + r
      · have hmod : idx % m = r := by
          rw [h2, Nat.mul_comm, Nat.mul_add_mod, Nat.mod_eq_of_lt hm]
        have hdiv : idx / m = l := by
          rw [h2, Nat.mul_comm, Nat.mul_add_div (by omega), Nat.div_eq_of_lt hm,
            Nat.add_zero]
        rw [h2, Function.update_same, ← h2,
          if_pos (by omega : idx % m = r ∧ l ≤ idx / m ∧ idx / m < l + (c + 1)), hdiv]
      · rw [Function.update_noteq h2]
        have hneg : ¬(idx % m = r ∧ l ≤ idx / m ∧ idx / m < l + (c + 1)) := by
          rintro ⟨ha, hb, hc⟩
          have hdl : idx / m = l := by omega
          exact h2 (by
            calc idx = m * (idx / m) + idx % m := (Nat.div_add_mod idx m).symm
              _ = l * m + r := by rw [hdl, ha, Nat.mul_comm])
        rw [if_neg hneg]

/-- Pointwise behaviour of the double loop writing the transpose of the
row range `[m1, m1 + cr)` and column range `[n1, n1 + cn)`. -/
theorem transRows_apply (mat : ℕ → α) (m n n1 cn : ℕ) :
    ∀ (cr m1 : ℕ) (o : ℕ → α) (idx : ℕ), m1 + cr ≤ m →
      ((List.range' m1 cr).foldl
        (fun o' r =>
          (List.range' n1 cn).foldl
            (fun o2 s => Function.update o2 (s * m + r) (mat (r * n + s))) o')
        o) idx =
      if m1 ≤ idx % m ∧ idx % m < m1 + cr ∧ n1 ≤ idx / m ∧ idx / m < n1 + cn
      then mat ((idx % m) * n + idx / m) else o idx := by
  intro cr
  induction cr with
  | zero =>
    intro m1 o idx _
    rw [List.range'_zero, List.foldl_nil, if_neg (by omega)]
  | succ cr ih =>
    intro m1 o idx hm1
    rw [List.range'_succ, List.foldl_cons, ih (m1 + 1) _ idx (by omega),
      transCols_apply mat m n m1 (by omega) cn n1 o idx]
    by_cases hA : m1 + 1 ≤ idx % m ∧ idx % m < m1 + 1 + cr ∧
        n1 ≤ idx / m ∧ idx / m < n1 + cn
    · rw [if_pos hA, if_pos (by omega : m1 ≤ idx % m ∧ idx % m < m1 + (cr + 1) ∧
        n1 ≤ idx / m ∧ idx / m < n1 + cn)]
    · rw [if_neg hA]
      by_cases hB : idx % m = m1 ∧ n1 ≤ idx / m ∧ idx / m < n1 + cn
      · rw [if_pos hB, if_pos (by omega : m1 ≤ idx % m ∧ idx % m < m1 + (cr + 1) ∧
          n1 ≤ idx / m ∧ idx / m < n1 + cn), hB.1]
      · rw [if_neg hB, if_neg (by omega : ¬(m1 ≤ idx % m ∧ idx % m < m1 + (cr + 1) ∧
          n1 ≤ idx / m ∧ idx / m < n1 + cn))]

/-- Pointwise behaviour of the base-case double loop of `CFTranspose`. -/
theorem transBase_apply (mat mt : ℕ → α) (m n m1 m2 n1 n2 idx : ℕ)
    (hm : m2 ≤ m) :
    transBase mat mt m n m1 m2 n1 n2 idx =
      if m1 ≤ idx % m ∧ idx % m < m2 ∧ n1 ≤ idx / m ∧ idx / m < n2
      then mat ((idx % m) * n + idx / m) else mt idx := by
  rcases Nat.le_total m1 m2 with h | h
  · rw [transBase, transRows_apply mat m n n1 (n2 - n1) (m2 - m1) m1 mt idx (by omega)]
    by_cases hc : m1 ≤ idx % m ∧ idx % m < m2 ∧ n1 ≤ idx / m ∧ idx / m < n2
    · rw [if_pos (by omega), if_pos hc]
    · rw [if_neg (by omega), if_neg hc]
  · have h0 : m2 - m1 = 0 := by omega
    rw [transBase, h0, List.range'_zero, List.foldl_nil, if_neg (by omega)]

/-- Pointwise behaviour of the recursive blocked transpose `CFTranspose`
on any sub-rectangle with `m2 ≤ m`, by induction on the extent of the
rectangle. -/
theorem CFTranspose_apply (mat : ℕ → α) (m n : ℕ) :
    ∀ (μ m1 m2 n1 n2 : ℕ) (mt : ℕ → α) (idx : ℕ),
      (m2 - m1) + (n2 - n1) ≤ μ → m2 ≤ m →
      CFTranspose mat mt m n m1 m2 n1 n2 idx =
        if m1 ≤ idx % m ∧ idx % m < m2 ∧ n1 ≤ idx / m ∧ idx / m < n2
        then mat ((idx % m) * n + idx / m) else mt idx := by
  intro μ
  induction μ with
  | zero =>
    intro m1 m2 n1 n2 mt idx hμ hm
    rw [CFTranspose, dif_neg (by omega), dif_neg (by omega)]
    exact transBase_apply mat mt m n m1 m2 n1 n2 idx hm
  | succ μ ih =>
    intro m1 m2 n1 n2 mt idx hμ hm
    by_cases h1 : n2 - n1 ≤ m2 - m1 ∧ 16 < m2 - m1
    · rw [CFTranspose, dif_pos h1]
      have hmid1 : m1 + 1 ≤ (m1 + m2) / 2 := by
        rw [Nat.le_div_iff_mul_le (by omega : 0 < 2)]
        omega
      have hmid2 : (m1 + m2) / 2 < m2 := by
        rw [Nat.div_lt_iff_lt_mul (by omega : 0 < 2)]
        omega
      rw [ih ((m1 + m2) / 2) m2 n1 n2 _ idx (by omega) hm,
        ih m1 ((m1 + m2) / 2) n1 n2 mt idx (by omega) (by omega)]
      by_cases hA : (m1 + m2) / 2 ≤ idx % m ∧ idx % m < m2 ∧
          n1 ≤ idx / m ∧ idx / m < n2
      · rw [if_pos hA, if_pos (by omega : m1 ≤ idx % m ∧ idx % m < m2 ∧
          n1 ≤ idx / m ∧ idx / m < n2)]
      · rw [if_neg hA]
        by_cases hB : m1 ≤ idx % m ∧ idx % m < (m1 + m2) / 2 ∧
            n1 ≤ idx / m ∧ idx / m < n2
        · rw [if_pos hB, if_pos (by omega : m1 ≤ idx % m ∧ idx % m < m2 ∧
            n1 ≤ idx / m ∧ idx / m < n2)]
        · rw [if_neg hB, if_neg (by omega : ¬(m1 ≤ idx % m ∧ idx % m < m2 ∧
            n1 ≤ idx / m ∧ idx / m < n2))]
    · by_cases h2 : 16 < n2 - n1
      · rw [CFTranspose, dif_neg h1, dif_pos h2]
        have hmid1 : n1 + 1 ≤ (n1 + n2) / 2 := by
          rw [Nat.le_div_iff_mul_le (by omega : 0 < 2)]
          omega
        have hmid2 : (n1 + n2) / 2 < n2 := by
          rw [Nat.div_lt_iff_lt_mul (by omega : 0 < 2)]
          omega
        rw [ih m1 m2 ((n1 + n2) / 2) n2 _ idx (by omega) hm,
          ih m1 m2 n1 ((n1 + n2) / 2) mt idx (by omega) hm]
        by_cases hA : m1 ≤ idx % m ∧ idx % m < m2 ∧
            (n1 + n2) / 2 ≤ idx / m ∧ idx / m < n2
        · rw [if_pos hA, if_pos (by omega : m1 ≤ idx % m ∧ idx % m < m2 ∧
            n1 ≤ idx / m ∧ idx / m < n2)]
        · rw [if_neg hA]
          by_cases hB : m1 ≤ idx % m ∧ idx % m < m2 ∧
              n1 ≤ idx / m ∧ idx / m < (n1 + n2) / 2
          · rw [if_pos hB, if_pos (by omega : m1 ≤ idx % m ∧ idx % m < m2 ∧
              n1 ≤ idx / m ∧ idx / m < n2)]
          · rw [if_neg hB, if_neg (by omega : ¬(m1 ≤ idx % m ∧ idx % m < m2 ∧
              n1 ≤ idx / m ∧ idx / m < n2))]
      · rw [CFTranspose, dif_neg h1, dif_neg h2]
        exact transBase_apply mat mt m n m1 m2 n1 n2 idx hm

/-- Pointwise behaviour of the naive double-loop transpose. -/
theorem naiveTranspose_apply (mat mt : ℕ → α) (m n idx : ℕ) :
    naiveTranspose mat mt m n idx =
      if idx % m < m ∧ idx / m < n then mat ((idx % m) * n + idx / m)
      else mt idx := by
  rw [naiveTranspose]
  simp only [List.range_eq_range']
  rw [transRows_apply mat m n 0 n m 0 mt idx (by omega)]
  by_cases hc : idx % m < m ∧ idx / m < n
  · rw [if_pos ⟨Nat.zero_le _, by omega, Nat.zero_le _, by omega⟩, if_pos hc]
  · rw [if_neg (by omega), if_neg hc]

/-- C4: for every `m×n` row-major matrix `mat` and every `r < m`, `s < n`,
`Transpose(mat, mat_t, m, n)` writes `mat[r·n + s]` to `mat_t[s·m + r]`;
and the result of the recursive blocked routine (block threshold 16) is
identical to the naive double loop for every `m` and `n`, including `m`
or `n` equal to `0`, not a multiple of the block size, or below the
threshold. -/
theorem transpose_correct (mat mt : ℕ → α) (m n : ℕ) :
    (∀ r, r < m → ∀ s, s < n → Transpose mat mt m n (s * m + r) = mat (r * n + s)) ∧
    (∀ idx, Transpose mat mt m n idx = naiveTranspose mat mt m n idx) := by
  constructor
  · intro r hr s hs
    rw [Transpose,
      CFTranspose_apply mat m n ((m - 0) + (n - 0)) 0 m 0 n mt _ (by omega)
        (Nat.le_refl m)]
    have hmod : (s * m + r) % m = r := by
      rw [Nat.mul_comm, Nat.mul_add_mod, Nat.mod_eq_of_lt hr]
    have hdiv : (s * m + r) / m = s := by
      rw [Nat.mul_comm, Nat.mul_add_div (by omega), Nat.div_eq_of_lt hr,
        Nat.add_zero]
    rw [hmod, hdiv, if_pos ⟨Nat.zero_le r, hr, Nat.zero_le s, hs⟩]
  · intro idx
    rw [Transpose,
      CFTranspose_apply mat m n ((m - 0) + (n - 0)) 0 m 0 n mt idx (by omega)
        (Nat.le_refl m),
      naiveTranspose_apply]
    by_cases hc : idx % m < m ∧ idx / m < n
    · rw [if_pos ⟨Nat.zero_le _, by omega, Nat.zero_le _, by omega⟩, if_pos hc]
    · rw [if_neg (by omega), if_neg hc]

/-- Witness for C4: the blocked transpose of the 2×3 integer matrix
`[[0,1,2],[3,4,5]]` places entry `(1,2)` at flat position `2·2+1`. -/
theorem transpose_correct_witness :
    Util.Transpose (fun i => (i : ℤ)) (fun _ => 0) 2 3 (2 * 2 + 1) =
      (fun i => (i : ℤ)) (1 * 3 + 2) :=
  (transpose_correct (fun i => (i : ℤ)) (fun _ => 0) 2 3).1 1 (by norm_num) 2
    (by norm_num)

end Util

namespace Algorithms

/-- The conjugated inner product of two 2-element complex vectors, via the
math-kernel `innerProdC`. -/
theorem innerProdCVec_pair (a b c d : ℂ) :
    Util.innerProdCVec [a, b] [c, d] = star a * c + star b * d := by
  rw [Util.innerProdCVec, show ([a, b] : List ℂ).length = 2 from rfl,
    Util.innerProdC_eq_sum _ _ 2 2 (by norm_num)]
  simp [Finset.sum_range_succ]

/-- C3: for every angle `θ`, running the (spec-modelled) adjoint
differentiation on a 1-qubit circuit with initial state `|0⟩`, the single
gate `RX(θ)` marked trainable, and the single observable `PauliZ` on wire
0, writes `-sin θ` as the first (and only) entry of the Jacobian
buffer. -/
theorem adjointJacobianRX_eq_neg_sin (θ : ℝ) :
    adjointJacobianRX θ = [-Real.sin θ] := by
  have hsin : Real.sin θ = 2 * Real.sin (θ / 2) * Real.cos (θ / 2) := by
    rw [show θ = 2 * (θ / 2) from by ring, Real.sin_two_mul]
    ring_nf
  have hstep : Complex.I * Util.innerProdCVec
      (applyPauliZ (applyRX θ [1, 0])) (applyPauliX (applyRX θ [1, 0])) =
      ((2 * Real.sin (θ / 2) * Real.cos (θ / 2) : ℝ) : ℂ) := by
    simp only [applyRX, applyPauliZ, applyPauliX, List.getD_cons_zero,
      List.getD_cons_succ]
    rw [innerProdCVec_pair]
    apply Complex.ext <;>
      simp only [mul_one, mul_zero, sub_zero, add_zero, zero_add, neg_neg,
        Complex.star_def, map_mul, map_neg, Complex.conj_I, Complex.conj_ofReal,
        Complex.mul_re, Complex.mul_im, Complex.add_re, Complex.add_im,
        Complex.neg_re, Complex.neg_im, Complex.I_re, Complex.I_im,
        Complex.ofReal_re, Complex.ofReal_im] <;>
      ring
  simp only [adjointJacobianRX]
  rw [hstep, Complex.ofReal_re, List.cons.injEq]
  refine ⟨?_, rfl⟩
  rw [hsin]
  ring

end Algorithms

end Pennylane
